import Mathlib

/-!
Verification of the recurring-event expansion engine of a voice-calendar
application.  The engine exists in two backends: a database-backed storage
(`supabaseStorage.ts`, functions prefixed `supa` below) and an in-memory
storage (`MemStorage` / `EnhancedMemStorage`, functions prefixed `mem` /
`memLegacy` below).  Timestamps are naive local time; we model an instant as
a calendar date (year, month, day) plus milliseconds within the day.  The
`createdAt` field of stored records is omitted: it is never read by the
expansion or mutation logic.
-/

/-- Calendar instant: year, month (1-12), day (1-31), millisecond of day. -/
structure Instant where
  y : Int
  m : Nat
  d : Nat
  ms : Nat
deriving DecidableEq

/-- Gregorian leap year, as computed on the year number. -/
def isLeap (y : Int) : Bool :=
  y % 4 == 0 && (y % 100 != 0 || y % 400 == 0)

/-- Number of days in a month (month 1-12); values outside 1-12 map to 31. -/
def daysInMonth (y : Int) (m : Nat) : Nat :=
  match m with
  | 2 => if isLeap y then 29 else 28
  | 4 => 30
  | 6 => 30
  | 9 => 30
  | 11 => 30
  | _ => 31

/-- A structurally valid instant: month 1-12, day within the month, ms within the day. -/
def Instant.Valid (t : Instant) : Prop :=
  1 ≤ t.m ∧ t.m ≤ 12 ∧ 1 ≤ t.d ∧ t.d ≤ daysInMonth t.y t.m ∧ t.ms < 86400000

instance (t : Instant) : Decidable t.Valid := by
  unfold Instant.Valid; infer_instance

/-- Lexicographic (chronological) strict order on instants. -/
def Instant.lt (a b : Instant) : Prop :=
  a.y < b.y ∨ (a.y = b.y ∧ (a.m < b.m ∨ (a.m = b.m ∧
    (a.d < b.d ∨ (a.d = b.d ∧ a.ms < b.ms)))))

/-- Lexicographic (chronological) order on instants. -/
def Instant.le (a b : Instant) : Prop :=
  a.y < b.y ∨ (a.y = b.y ∧ (a.m < b.m ∨ (a.m = b.m ∧
    (a.d < b.d ∨ (a.d = b.d ∧ a.ms ≤ b.ms)))))

instance (a b : Instant) : Decidable (a.lt b) := by
  unfold Instant.lt; infer_instance

instance (a b : Instant) : Decidable (a.le b) := by
  unfold Instant.le; infer_instance

/-- Later of two instants (models `Math.max` on `getTime()`). -/
def imax (a b : Instant) : Instant := if a.lt b then b else a

/-- Earlier of two instants (models `Math.min` on `getTime()`). -/
def imin (a b : Instant) : Instant := if a.lt b then a else b

/-- The following calendar day, rolling over month and year ends. -/
def nextDay (t : Instant) : Instant :=
  if t.d < daysInMonth t.y t.m then { t with d := t.d + 1 }
  else if t.m < 12 then { t with m := t.m + 1, d := 1 }
  else { y := t.y + 1, m := 1, d := 1, ms := t.ms }

/-- Advance `n` calendar days (JS `setDate(getDate()+n)` / date-fns `addDays`). -/
def addDaysN (n : Nat) (t : Instant) : Instant := nextDay^[n] t

/-- Normalize a day-of-month overflow the way a JS `Date` does: excess days
spill into the following month.  For inputs with `d ≤ 31` one spill step
suffices, since every month has at least 28 days and December has 31. -/
def fixupMonth (y : Int) (m : Nat) (d : Nat) (ms : Nat) : Instant :=
  if d ≤ daysInMonth y m then ⟨y, m, d, ms⟩
  else if m < 12 then ⟨y, m + 1, d - daysInMonth y m, ms⟩
  else ⟨y + 1, 1, d - daysInMonth y m, ms⟩

/-- Add `k` months with JS `setMonth` semantics: the day-of-month is kept and
an overflow rolls into the following month. -/
def memAddMonths (k : Nat) (t : Instant) : Instant :=
  let mo := t.m - 1 + k
  fixupMonth (t.y + (mo / 12 : Nat)) (mo % 12 + 1) t.d t.ms

/-- Add `k` months with date-fns `addMonths` semantics: the day-of-month is
clamped to the length of the target month. -/
def supaAddMonths (k : Nat) (t : Instant) : Instant :=
  let mo := t.m - 1 + k
  let y' : Int := t.y + (mo / 12 : Nat)
  let m' := mo % 12 + 1
  ⟨y', m', min t.d (daysInMonth y' m'), t.ms⟩

/-- Add `k` years with JS `setFullYear` semantics (Feb 29 rolls to Mar 1). -/
def memAddYears (k : Nat) (t : Instant) : Instant :=
  fixupMonth (t.y + k) t.m t.d t.ms

/-- Add `k` years with date-fns `addYears` semantics (Feb 29 clamps to Feb 28). -/
def supaAddYears (k : Nat) (t : Instant) : Instant :=
  ⟨t.y + k, t.m, min t.d (daysInMonth (t.y + k) t.m), t.ms⟩

/-- The memory backend's interval stepper
(`EnhancedMemStorage.getNextRecurrenceDate`): JS `setDate` / `setMonth` /
`setFullYear`, any unrecognized pattern falls back to weekly. -/
def memStep (p : String) (t : Instant) : Instant :=
  if p = "daily" then addDaysN 1 t
  else if p = "weekly" then addDaysN 7 t
  else if p = "monthly" then memAddMonths 1 t
  else if p = "yearly" then memAddYears 1 t
  else addDaysN 7 t

/-- The database backend's interval stepper
(`SupabaseStorage.getNextRecurrenceDate`): date-fns `addDays` / `addWeeks` /
`addMonths` / `addYears`, any unrecognized pattern falls back to weekly. -/
def supaStep (p : String) (t : Instant) : Instant :=
  if p = "daily" then addDaysN 1 t
  else if p = "weekly" then addDaysN 7 t
  else if p = "monthly" then supaAddMonths 1 t
  else if p = "yearly" then supaAddYears 1 t
  else addDaysN 7 t

/-- Calendar-day key of an instant (models both `format(d, 'yyyy-MM-dd')`
and `toDateString()`: both collapse an instant to its calendar day). -/
def DayKey := Int × Nat × Nat
deriving DecidableEq

/-- Day key of an instant. -/
def dayKey (t : Instant) : DayKey := (t.y, t.m, t.d)

/-- Day-granularity rank of an instant, strictly monotone in the calendar
day for valid instants (coefficients: 13 months of 32 days). -/
def rankDayZ (t : Instant) : Int := t.y * 416 + t.m * 32 + t.d

/-- Days since 1970-01-01 of a calendar date (civil-calendar arithmetic,
used only to mirror `getTime()`-based computations in the source). -/
def daysFromCivil (y : Int) (m : Int) (d : Int) : Int :=
  let y2 := if m ≤ 2 then y - 1 else y
  let era := (if 0 ≤ y2 then y2 else y2 - 399) / 400
  let yoe := y2 - era * 400
  let doy := (153 * (if 2 < m then m - 3 else m + 9) + 2) / 5 + d - 1
  let doe := yoe * 365 + yoe / 4 - yoe / 100 + doy
  era * 146097 + doe - 719468

/-- Calendar date of a days-since-epoch count (inverse of `daysFromCivil`). -/
def civilFromDays (z0 : Int) : Int × Int × Int :=
  let z := z0 + 719468
  let era := (if 0 ≤ z then z else z - 146096) / 146097
  let doe := z - era * 146097
  let yoe := (doe - doe / 1460 + doe / 36524 - doe / 146096) / 365
  let y := yoe + era * 400
  let doy := doe - (365 * yoe + yoe / 4 - yoe / 100)
  let mp := (5 * doy + 2) / 153
  let d := doy - (153 * mp + 2) / 5 + 1
  let m := if mp < 10 then mp + 3 else mp - 9
  (if m ≤ 2 then y + 1 else y, m, d)

/-- Milliseconds since the epoch of an instant (models `Date.getTime()`). -/
def toMs (t : Instant) : Int := daysFromCivil t.y t.m t.d * 86400000 + t.ms

/-- Instant of a milliseconds-since-epoch count (models `new Date(ms)`). -/
def fromMs (n : Int) : Instant :=
  let c := civilFromDays (n.ediv 86400000)
  ⟨c.1, c.2.1.toNat, c.2.2.toNat, (n.emod 86400000).toNat⟩

/-!
Data model.  Instance ids mirror the composite-id conventions of the source:
the database backend builds `` `${id}-recur-${format(date,'yyyy-MM-dd')}` ``
(day granularity), the enhanced memory backend builds
`` `${id}-recur-${date.getTime()}` `` (instant granularity), and the legacy
memory generator builds `` `${id}-recur-${i}` `` (index granularity).
-/

/-- Identity of a stored or materialized event record. -/
inductive EventId where
  | base (n : Nat)
  | recurDay (parent : EventId) (k : DayKey)
  | recurMs (parent : EventId) (t : Instant)
  | recurIdx (parent : EventId) (i : Nat)
deriving DecidableEq

/-- Recurrence duration: a week count or the sentinel `indefinite`. -/
inductive RWeeks where
  | indefinite
  | count (n : Nat)
deriving DecidableEq

/-- An event row (master event, standalone modified event, or materialized
occurrence), after the `events` table of `schema.ts`. -/
structure Event where
  id : EventId
  title : String
  description : Option String
  startDate : Instant
  endDate : Option Instant
  isRecurring : Bool
  recurringPattern : Option String
  recurringWeeks : Option RWeeks
  parentEventId : Option EventId
  originalDate : Option Instant
deriving DecidableEq

/-- Exception type of an `event_exceptions` row. -/
inductive ExcType where
  | deleted
  | modified
deriving DecidableEq

/-- An exception record, after the `event_exceptions` table of `schema.ts`
(the row's own surrogate id is omitted: it is never read). -/
structure Exc where
  parentEventId : EventId
  exceptionDate : Instant
  type : ExcType
  modifiedEventId : Option EventId
deriving DecidableEq

/-- Storage state shared by both backends: the `events` table / map in
insertion order, the `event_exceptions` rows in insertion order, and a
counter determinizing fresh id generation (`gen_random_uuid` / `randomUUID`). -/
structure Store where
  events : List Event
  exceptions : List Exc
  nextId : Nat
deriving DecidableEq

/-- Partial update passed to `updateRecurringInstance`
(`Partial<InsertEvent>`); a missing field falls back via `??` in the source. -/
structure Updates where
  title : Option String
  description : Option String
  startDate : Option Instant
  endDate : Option Instant
deriving DecidableEq

/-- Update with no fields set. -/
def Updates.none' : Updates := ⟨none, none, none, none⟩

/-- Exceptions of one parent event, in insertion order (models both the
grouping map of `expandRecurringEvents` and the per-parent lists of
`EnhancedMemStorage.eventExceptions`). -/
def excFor (s : Store) (pid : EventId) : List Exc :=
  s.exceptions.filter (fun e => e.parentEventId == pid)

/-- Day keys of the `deleted` exceptions of a list. -/
def delKeys (excs : List Exc) : List DayKey :=
  (excs.filter (fun e => e.type == ExcType.deleted)).map (fun e => dayKey e.exceptionDate)

/-- Day keys of the `modified` exceptions of a list. -/
def modKeys (excs : List Exc) : List DayKey :=
  (excs.filter (fun e => e.type == ExcType.modified)).map (fun e => dayKey e.exceptionDate)

/-- Stable insertion of an event into a list sorted by start date: the event
goes after every element not strictly later than it. -/
def insertByStart (e : Event) : List Event → List Event
  | [] => [e]
  | x :: xs => if e.startDate.lt x.startDate then e :: x :: xs else x :: insertByStart e xs

/-- Stable ascending sort by start date (models the stable JS
`sort((a,b) => a.startDate - b.startDate)`). -/
def sortByStart (l : List Event) : List Event :=
  l.foldl (fun acc e => insertByStart e acc) []

/-!
Database backend (`SupabaseStorage`).
-/

/-- End of the generated series
(`SupabaseStorage.generateRecurringInstances`, series-end computation):
the window end, or for a numeric week count the earlier of window end and
`addWeeks(eventStart, weeks)`. -/
def supaSeriesEnd (base : Event) (wEnd : Instant) : Instant :=
  match base.recurringWeeks with
  | some (RWeeks.count w) => imin (addDaysN (7 * w) base.startDate) wEnd
  | _ => wEnd

/-- Occurrence record emitted by the database generator: the master's fields
with a day-keyed composite id, the cursor as start, the end shifted by the
master's duration when an end date is present, and the parent link and
original date set to the cursor. -/
def supaInstance (base : Event) (c : Instant) : Event :=
  let timeDiff := toMs (base.endDate.getD base.startDate) - toMs base.startDate
  { base with
    id := EventId.recurDay base.id (dayKey c)
    startDate := c
    endDate := match base.endDate with
      | some _ => some (fromMs (toMs c + timeDiff))
      | none => none
    parentEventId := some base.id
    originalDate := some c }

/-- Fuel sufficient for a generator loop running from `c` to `e`: the loop
advances at least one calendar day per iteration. -/
def fuelFor (c e : Instant) : Nat := (rankDayZ e - rankDayZ c).toNat + 2

/-- Loop of `SupabaseStorage.generateRecurringInstances`: while the cursor is
before the series end, skip day keys marked deleted or modified, emit an
occurrence otherwise, and step by the recurrence pattern.  The source loop
carries no iteration cap; the fuel argument makes the recursion structural
and is chosen large enough to be invisible (proved below). -/
def supaGenLoop (pat : String) (base : Event) (send : Instant)
    (dels mods : List DayKey) : Nat → Instant → List Event
  | 0, _ => []
  | fuel + 1, c =>
    if c.lt send then
      if dayKey c ∈ dels ∨ dayKey c ∈ mods then
        supaGenLoop pat base send dels mods fuel (supaStep pat c)
      else
        supaInstance base c :: supaGenLoop pat base send dels mods fuel (supaStep pat c)
    else []

/-- `SupabaseStorage.generateRecurringInstances`: cursor starts at the later
of the master's start and the window start; deleted and modified day keys are
collected from the exception rows. -/
def supaGenerate (base : Event) (wStart wEnd : Instant) (excs : List Exc) : List Event :=
  let c0 := imax base.startDate wStart
  let send := supaSeriesEnd base wEnd
  supaGenLoop (base.recurringPattern.getD "") base send
    (delKeys excs) (modKeys excs) (fuelFor c0 send) c0

/-- `SupabaseStorage.expandRecurringEvents`: defaults the window to
`[now, now + 6 months)` when no range is given, passes non-recurring rows
through, expands recurring rows, appends every stored standalone modified
event (non-recurring with a parent link) regardless of window, and sorts
by start date. -/
def supaExpand (s : Store) (dbEvents : List Event)
    (rangeStart rangeEnd : Option Instant) (now : Instant) : List Event :=
  let wStart := rangeStart.getD now
  let wEnd := rangeEnd.getD (supaAddMonths 6 now)
  let expanded := dbEvents.flatMap (fun e =>
    if e.isRecurring then supaGenerate e wStart wEnd (excFor s e.id) else [e])
  let modified := s.events.filter (fun e => !e.isRecurring && e.parentEventId.isSome)
  sortByStart (expanded ++ modified)

/-- `SupabaseStorage.getEvents`: all rows ordered by start date, expanded
with the default window. -/
def supaGetEvents (s : Store) (now : Instant) : List Event :=
  supaExpand s (sortByStart s.events) none none now

/-- `SupabaseStorage.getEventsByDateRange`: rows whose start date lies in
`[S, E]` (both bounds inclusive at the query level), ordered by start date,
expanded over the window `[S, E)`.  The clock argument of the expansion is
irrelevant here — both range bounds are supplied — so `S` is passed. -/
def supaGetEventsByDateRange (s : Store) (S E : Instant) : List Event :=
  supaExpand s
    (sortByStart (s.events.filter (fun e => decide (S.le e.startDate ∧ e.startDate.le E))))
    (some S) (some E) (S)

/-- `SupabaseStorage.deleteEvent` plus the cascades declared in `schema.ts`:
the row is removed, and every exception row whose `parentEventId` or
`modifiedEventId` references it is removed by the foreign-key cascade.
Returns whether a row was deleted. -/
def supaDeleteEvent (s : Store) (id : EventId) : Bool × Store :=
  (s.events.any (fun e => e.id == id),
   { s with
     events := s.events.filter (fun e => !(e.id == id))
     exceptions := s.exceptions.filter
       (fun ex => !(ex.parentEventId == id) && !(ex.modifiedEventId == some id)) })

/-- `SupabaseStorage.deleteRecurringInstance`: unconditionally inserts a
`deleted` exception row.  The function body performs no parent check; the
existence test here models the `parent_event_id` foreign-key constraint of
`schema.ts`, which rejects the insert (result `none`) when no event row has
the given id. -/
def supaDeleteRecurringInstance (s : Store) (pid : EventId) (d : Instant) : Option Store :=
  if s.events.any (fun e => e.id == pid) then
    some { s with exceptions := s.exceptions ++ [⟨pid, d, ExcType.deleted, none⟩] }
  else none

/-- Standalone modified event built by `updateRecurringInstance` (identical
field computation in both backends): title, description and end date fall
back to the parent via `??`, the start date falls back to the instance date,
recurrence fields are cleared, and the parent link and original date are set. -/
def modifiedInstanceEvent (newId : EventId) (pid : EventId) (parent : Event)
    (d : Instant) (u : Updates) : Event :=
  { id := newId
    title := u.title.getD parent.title
    description := u.description.or parent.description
    startDate := u.startDate.getD d
    endDate := u.endDate.or parent.endDate
    isRecurring := false
    recurringPattern := none
    recurringWeeks := none
    parentEventId := some pid
    originalDate := some d }

/-- `SupabaseStorage.updateRecurringInstance`: returns `none` and writes
nothing when the parent id resolves to no row; otherwise inserts the
standalone modified event, inserts the paired `modified` exception pointing
at it, and returns the new event. -/
def supaUpdateRecurringInstance (s : Store) (pid : EventId) (d : Instant)
    (u : Updates) : Option Event × Store :=
  match s.events.find? (fun e => e.id == pid) with
  | none => (none, s)
  | some parent =>
    let ev := modifiedInstanceEvent (EventId.base s.nextId) pid parent d u
    (some ev,
     { events := s.events ++ [ev]
       exceptions := s.exceptions ++ [⟨pid, d, ExcType.modified, some ev.id⟩]
       nextId := s.nextId + 1 })

/-!
Memory backend (`MemStorage` and `EnhancedMemStorage`).
-/

/-- End of the generated series
(`EnhancedMemStorage.generateRecurringInstances`): computed in epoch
milliseconds, `eventStart + weeks * 7 * 24 * 60 * 60 * 1000`. -/
def memSeriesEnd (base : Event) (wEnd : Instant) : Instant :=
  match base.recurringWeeks with
  | some (RWeeks.count w) =>
    imin (fromMs (toMs base.startDate + (w : Int) * 604800000)) wEnd
  | _ => wEnd

/-- Occurrence record emitted by the enhanced memory generator: id keyed by
the cursor instant, end date present only when the master's duration is
positive. -/
def memInstance (base : Event) (c : Instant) : Event :=
  let timeDiff : Int := match base.endDate with
    | some e => toMs e - toMs base.startDate
    | none => 0
  { base with
    id := EventId.recurMs base.id c
    startDate := c
    endDate := if 0 < timeDiff then some (fromMs (toMs c + timeDiff)) else none
    parentEventId := some base.id
    originalDate := some c }

/-- Loop of `EnhancedMemStorage.generateRecurringInstances`, carrying the
source's hard iteration cap (`maxIterations = 500`) as the recursion fuel. -/
def memGenLoop (pat : String) (base : Event) (send : Instant)
    (dels mods : List DayKey) : Nat → Instant → List Event
  | 0, _ => []
  | n + 1, c =>
    if c.lt send then
      if dayKey c ∈ dels ∨ dayKey c ∈ mods then
        memGenLoop pat base send dels mods n (memStep pat c)
      else
        memInstance base c :: memGenLoop pat base send dels mods n (memStep pat c)
    else []

/-- `EnhancedMemStorage.generateRecurringInstances`: cursor starts at the
later of the master's start and the window start, capped at 500 iterations. -/
def memGenerate (base : Event) (wStart wEnd : Instant)
    (dels mods : List DayKey) : List Event :=
  memGenLoop (base.recurringPattern.getD "") base (memSeriesEnd base wEnd)
    dels mods 500 (imax base.startDate wStart)

/-- `EnhancedMemStorage.expandRecurringEvents`: window is
`[now, now + 180 days)` in epoch milliseconds; non-recurring rows (including
standalone modified events held in the map) pass through once; recurring rows
are expanded against their deleted and modified day-key sets. -/
def memExpand (s : Store) (now : Instant) : List Event :=
  let wEnd := fromMs (toMs now + 15552000000)
  sortByStart (s.events.flatMap (fun e =>
    if e.isRecurring then
      memGenerate e now wEnd (delKeys (excFor s e.id)) (modKeys (excFor s e.id))
    else [e]))

/-- `EnhancedMemStorage.getEvents`. -/
def memGetEvents (s : Store) (now : Instant) : List Event := memExpand s now

/-- `MemStorage.getRecurrenceInterval`: days per step, defaulting to 7. -/
def recurrenceInterval (p : Option String) : Nat :=
  if p = some "daily" then 1
  else if p = some "weekly" then 7
  else if p = some "monthly" then 30
  else if p = some "yearly" then 365
  else 7

/-- Shift of the `i`-th instance in `MemStorage.generateRecurringEvents`:
`none` for an unrecognized (or absent) pattern, whose `switch` default is
`continue`. -/
def memLegacyShift (p : Option String) (base : Instant) (i : Nat) : Option Instant :=
  if p = some "daily" then some (addDaysN i base)
  else if p = some "weekly" then some (addDaysN (7 * i) base)
  else if p = some "monthly" then some (memAddMonths i base)
  else if p = some "yearly" then some (memAddYears i base)
  else none

/-- `MemStorage.generateRecurringEvents`: instances `i = 1 .. daysAhead /
interval`, each an index-keyed copy of the master (recurrence flags kept,
no parent link, no original date), ignoring exceptions and `recurringWeeks`. -/
def memLegacyGen (base : Event) (daysAhead : Nat) : List Event :=
  (List.range' 1 (daysAhead / recurrenceInterval base.recurringPattern)).filterMap
    (fun i => (memLegacyShift base.recurringPattern base.startDate i).map (fun nd =>
      { id := EventId.recurIdx base.id i
        title := base.title
        description := base.description
        startDate := nd
        endDate := match base.endDate with
          | some be => some (fromMs (toMs nd + (toMs be - toMs base.startDate)))
          | none => none
        isRecurring := base.isRecurring
        recurringPattern := base.recurringPattern
        recurringWeeks := base.recurringWeeks
        parentEventId := none
        originalDate := none }))

/-- `MemStorage.getEventsByDateRange` (inherited unchanged by
`EnhancedMemStorage`): a master is included when its start lies in `[S, E]`
(both bounds inclusive); for a recurring master with a non-empty pattern the
legacy generator runs over 365 days and its instances are filtered to
`[S, E]` (both bounds inclusive); exceptions are never consulted. -/
def memGetEventsByDateRange (s : Store) (S E : Instant) : List Event :=
  sortByStart (s.events.flatMap (fun e =>
    (if S.le e.startDate ∧ e.startDate.le E then [e] else []) ++
    (if e.isRecurring && !(e.recurringPattern.getD "" == "") then
      (memLegacyGen e 365).filter (fun r => decide (S.le r.startDate ∧ r.startDate.le E))
    else [])))

/-- `MemStorage.deleteEvent` (inherited unchanged by `EnhancedMemStorage`):
removes only the event record itself; exception records and standalone
modified events are untouched. -/
def memDeleteEvent (s : Store) (id : EventId) : Bool × Store :=
  (s.events.any (fun e => e.id == id),
   { s with events := s.events.filter (fun e => !(e.id == id)) })

/-- `EnhancedMemStorage.deleteRecurringInstance`: unconditionally records a
`deleted` exception for the parent id and returns `true`; the parent's
existence is never checked. -/
def memDeleteRecurringInstance (s : Store) (pid : EventId) (d : Instant) : Bool × Store :=
  (true, { s with exceptions := s.exceptions ++ [⟨pid, d, ExcType.deleted, none⟩] })

/-- `EnhancedMemStorage.updateRecurringInstance`: returns `null` and writes
nothing when the parent id resolves to no record; otherwise stores the
standalone modified event, records the paired `modified` exception, and
returns the new event. -/
def memUpdateRecurringInstance (s : Store) (pid : EventId) (d : Instant)
    (u : Updates) : Option Event × Store :=
  match s.events.find? (fun e => e.id == pid) with
  | none => (none, s)
  | some parent =>
    let ev := modifiedInstanceEvent (EventId.base s.nextId) pid parent d u
    (some ev,
     { events := s.events ++ [ev]
       exceptions := s.exceptions ++ [⟨pid, d, ExcType.modified, some ev.id⟩]
       nextId := s.nextId + 1 })

/-!
Order and calendar-arithmetic lemmas.
-/

/-- Every month length lies between 28 and 31 days. -/
theorem daysInMonth_bounds (y : Int) (m : Nat) :
    28 ≤ daysInMonth y m ∧ daysInMonth y m ≤ 31 := by
  unfold daysInMonth
  split <;> first | omega | (split <;> omega)

/-- December always has 31 days. -/
theorem daysInMonth_twelve (y : Int) : daysInMonth y 12 = 31 := rfl

/-- January always has 31 days. -/
theorem daysInMonth_one (y : Int) : daysInMonth y 1 = 31 := rfl

/-- Chronological order is transitive. -/
theorem Instant.lt_trans {a b c : Instant} (h1 : a.lt b) (h2 : b.lt c) : a.lt c := by
  unfold Instant.lt at *; omega

/-- Strict order implies order. -/
theorem Instant.le_of_lt {a b : Instant} (h : a.lt b) : a.le b := by
  unfold Instant.lt Instant.le at *; omega

/-- Order is reflexive. -/
theorem Instant.le_refl (a : Instant) : a.le a := by
  unfold Instant.le; omega

/-- Order is transitive. -/
theorem Instant.le_trans {a b c : Instant} (h1 : a.le b) (h2 : b.le c) : a.le c := by
  unfold Instant.le at *; omega

/-- Order followed by strict order is strict. -/
theorem Instant.lt_of_le_of_lt {a b c : Instant} (h1 : a.le b) (h2 : b.lt c) : a.lt c := by
  unfold Instant.lt Instant.le at *; omega

/-- Strict order followed by order is strict. -/
theorem Instant.lt_of_lt_of_le {a b c : Instant} (h1 : a.lt b) (h2 : b.le c) : a.lt c := by
  unfold Instant.lt Instant.le at *; omega

/-- Instants are totally ordered: not strictly later means not later at all. -/
theorem Instant.le_of_not_lt {a b : Instant} (h : ¬ a.lt b) : b.le a := by
  unfold Instant.lt at h; unfold Instant.le; omega

/-- The later of two instants is at least the second. -/
theorem imax_le_right (a b : Instant) : b.le (imax a b) := by
  unfold imax
  split
  · exact Instant.le_refl b
  · exact Instant.le_of_not_lt (by assumption)

/-- The earlier of two instants is at most the second. -/
theorem imin_le_right (a b : Instant) : (imin a b).le b := by
  unfold imin
  split
  · exact Instant.le_of_lt (by assumption)
  · exact Instant.le_refl b

/-- A strictly earlier valid instant has a day rank no larger. -/
theorem rankDayZ_le_of_lt {a b : Instant} (ha : a.Valid) (hb : b.Valid)
    (h : a.lt b) : rankDayZ a ≤ rankDayZ b := by
  obtain ⟨_, _, _, _, _⟩ := ha
  obtain ⟨_, _, _, _, _⟩ := hb
  have := daysInMonth_bounds a.y a.m
  have := daysInMonth_bounds b.y b.m
  unfold Instant.lt at h; unfold rankDayZ; omega

/-- Stepping to the next calendar day preserves validity and the time of day,
and strictly increases both the chronological order and the day rank. -/
theorem nextDay_spec {t : Instant} (h : t.Valid) :
    (nextDay t).Valid ∧ t.lt (nextDay t) ∧
    rankDayZ t < rankDayZ (nextDay t) ∧ (nextDay t).ms = t.ms := by
  obtain ⟨h1, h2, h3, h4, h5⟩ := h
  have hb := daysInMonth_bounds t.y t.m
  have hb2 := daysInMonth_bounds t.y (t.m + 1)
  have hb3 := daysInMonth_bounds (t.y + 1) 1
  unfold nextDay
  split_ifs with hc1 hc2 <;>
    refine ⟨⟨?_, ?_, ?_, ?_, ?_⟩, ?_, ?_, rfl⟩ <;>
    (try unfold Instant.lt) <;> (try unfold rankDayZ) <;> dsimp only <;> omega

/-- Advancing `n` days preserves validity and time of day, increases the day
rank by at least `n`, and moves chronologically forward (strictly for
positive `n`). -/
theorem addDaysN_spec (n : Nat) (t : Instant) (h : t.Valid) :
    (addDaysN n t).Valid ∧ (addDaysN n t).ms = t.ms ∧
    rankDayZ t + n ≤ rankDayZ (addDaysN n t) ∧
    t.le (addDaysN n t) ∧ (0 < n → t.lt (addDaysN n t)) := by
  induction n with
  | zero => exact ⟨h, rfl, by simp [addDaysN], Instant.le_refl t, by omega⟩
  | succ k ih =>
    obtain ⟨hv, hms, hrank, hle, _⟩ := ih
    have hstep := nextDay_spec hv
    have heq : addDaysN (k + 1) t = nextDay (addDaysN k t) := by
      unfold addDaysN; exact Function.iterate_succ_apply' nextDay k t
    refine ⟨heq ▸ hstep.1, by rw [heq, hstep.2.2.2, hms], by rw [heq]; omega, ?_, ?_⟩
    · exact heq ▸ Instant.le_trans hle (Instant.le_of_lt hstep.2.1)
    · exact fun _ => heq ▸ Instant.lt_of_le_of_lt hle hstep.2.1
/-- Adding one JS-style month preserves validity and time of day and strictly
increases the chronological order and day rank. -/
theorem memAddMonths_one_spec {t : Instant} (h : t.Valid) :
    (memAddMonths 1 t).Valid ∧ t.lt (memAddMonths 1 t) ∧
    rankDayZ t < rankDayZ (memAddMonths 1 t) ∧ (memAddMonths 1 t).ms = t.ms := by
  obtain ⟨h1, h2, h3, h4, h5⟩ := h
  have hdm := daysInMonth_bounds t.y t.m
  have hd1 := daysInMonth_bounds t.y (t.m + 1)
  have hd2 := daysInMonth_bounds t.y (t.m + 1 + 1)
  have hy1 := daysInMonth_bounds (t.y + 1) 1
  have h12 := daysInMonth_twelve t.y
  have hmm : t.m - 1 + 1 = t.m := by omega
  unfold memAddMonths
  dsimp only
  rw [hmm]
  by_cases hm12 : t.m = 12
  · rw [hm12]
    simp only [show (12 : Nat) / 12 = 1 from rfl, show (12 : Nat) % 12 = 0 from rfl,
      Nat.cast_one, Nat.zero_add]
    rw [hm12] at h4
    rw [daysInMonth_twelve] at h4
    unfold fixupMonth
    have hle : t.d ≤ daysInMonth (t.y + 1) (0 + 1) := by
      simp only [Nat.zero_add, daysInMonth_one]; omega
    rw [if_pos hle]
    unfold Instant.Valid Instant.lt rankDayZ
    dsimp only
    simp only [Nat.zero_add, daysInMonth_one, and_true, true_and]
    omega
  · have hdiv : t.m / 12 = 0 := by omega
    have hmod : t.m % 12 = t.m := by omega
    rw [hdiv, hmod]
    simp only [Nat.cast_zero, add_zero]
    unfold fixupMonth
    split_ifs with hc1 hc2 <;>
      unfold Instant.Valid Instant.lt rankDayZ <;> dsimp only <;>
      simp only [and_true, true_and] <;> omega

/-- Adding one date-fns month preserves validity and time of day and strictly
increases the chronological order and day rank. -/
theorem supaAddMonths_one_spec {t : Instant} (h : t.Valid) :
    (supaAddMonths 1 t).Valid ∧ t.lt (supaAddMonths 1 t) ∧
    rankDayZ t < rankDayZ (supaAddMonths 1 t) ∧ (supaAddMonths 1 t).ms = t.ms := by
  obtain ⟨h1, h2, h3, h4, h5⟩ := h
  have hdm := daysInMonth_bounds t.y t.m
  have hd1 := daysInMonth_bounds t.y (t.m + 1)
  have hy1 := daysInMonth_bounds (t.y + 1) (0 + 1)
  have hmm : t.m - 1 + 1 = t.m := by omega
  unfold supaAddMonths
  dsimp only
  rw [hmm]
  by_cases hm12 : t.m = 12
  · rw [hm12]
    simp only [show (12 : Nat) / 12 = 1 from rfl, show (12 : Nat) % 12 = 0 from rfl,
      Nat.cast_one]
    rw [hm12] at h4
    rw [daysInMonth_twelve] at h4
    unfold Instant.Valid Instant.lt rankDayZ
    dsimp only
    simp only [and_true, true_and]
    omega
  · have hdiv : t.m / 12 = 0 := by omega
    have hmod : t.m % 12 = t.m := by omega
    rw [hdiv, hmod]
    simp only [Nat.cast_zero, add_zero]
    unfold Instant.Valid Instant.lt rankDayZ
    dsimp only
    simp only [and_true, true_and]
    omega

/-- Adding one JS-style year preserves validity and time of day and strictly
increases the chronological order and day rank. -/
theorem memAddYears_one_spec {t : Instant} (h : t.Valid) :
    (memAddYears 1 t).Valid ∧ t.lt (memAddYears 1 t) ∧
    rankDayZ t < rankDayZ (memAddYears 1 t) ∧ (memAddYears 1 t).ms = t.ms := by
  obtain ⟨h1, h2, h3, h4, h5⟩ := h
  have hdm := daysInMonth_bounds t.y t.m
  have hd1 := daysInMonth_bounds (t.y + 1) t.m
  have hd2 := daysInMonth_bounds (t.y + 1) (t.m + 1)
  unfold memAddYears fixupMonth
  simp only [Nat.cast_one]
  split_ifs with hc1 hc2
  · unfold Instant.Valid Instant.lt rankDayZ
    dsimp only
    omega
  · unfold Instant.Valid Instant.lt rankDayZ
    dsimp only
    omega
  · exfalso
    have hm : t.m = 12 := by omega
    rw [hm] at hc1 h4
    rw [daysInMonth_twelve] at hc1
    rw [daysInMonth_twelve] at h4
    omega

/-- Adding one date-fns year preserves validity and time of day and strictly
increases the chronological order and day rank. -/
theorem supaAddYears_one_spec {t : Instant} (h : t.Valid) :
    (supaAddYears 1 t).Valid ∧ t.lt (supaAddYears 1 t) ∧
    rankDayZ t < rankDayZ (supaAddYears 1 t) ∧ (supaAddYears 1 t).ms = t.ms := by
  obtain ⟨h1, h2, h3, h4, h5⟩ := h
  have hdm := daysInMonth_bounds t.y t.m
  have hd1 := daysInMonth_bounds (t.y + 1) t.m
  unfold supaAddYears
  simp only [Nat.cast_one]
  unfold Instant.Valid Instant.lt rankDayZ
  dsimp only
  simp only [and_true, true_and]
  omega

/-- The memory backend's stepper preserves validity and time of day and
strictly advances the chronological order and day rank, for every pattern. -/
theorem memStep_spec (p : String) {t : Instant} (h : t.Valid) :
    (memStep p t).Valid ∧ t.lt (memStep p t) ∧
    rankDayZ t < rankDayZ (memStep p t) ∧ (memStep p t).ms = t.ms := by
  unfold memStep
  split_ifs
  · have hs := addDaysN_spec 1 t h
    exact ⟨hs.1, hs.2.2.2.2 (by omega), by omega, hs.2.1⟩
  · have hs := addDaysN_spec 7 t h
    exact ⟨hs.1, hs.2.2.2.2 (by omega), by omega, hs.2.1⟩
  · exact memAddMonths_one_spec h
  · exact memAddYears_one_spec h
  · have hs := addDaysN_spec 7 t h
    exact ⟨hs.1, hs.2.2.2.2 (by omega), by omega, hs.2.1⟩

/-- The database backend's stepper preserves validity and time of day and
strictly advances the chronological order and day rank, for every pattern. -/
theorem supaStep_spec (p : String) {t : Instant} (h : t.Valid) :
    (supaStep p t).Valid ∧ t.lt (supaStep p t) ∧
    rankDayZ t < rankDayZ (supaStep p t) ∧ (supaStep p t).ms = t.ms := by
  unfold supaStep
  split_ifs
  · have hs := addDaysN_spec 1 t h
    exact ⟨hs.1, hs.2.2.2.2 (by omega), by omega, hs.2.1⟩
  · have hs := addDaysN_spec 7 t h
    exact ⟨hs.1, hs.2.2.2.2 (by omega), by omega, hs.2.1⟩
  · exact supaAddMonths_one_spec h
  · exact supaAddYears_one_spec h
  · have hs := addDaysN_spec 7 t h
    exact ⟨hs.1, hs.2.2.2.2 (by omega), by omega, hs.2.1⟩


/-- The later of two valid instants is valid. -/
theorem imax_valid {a b : Instant} (ha : a.Valid) (hb : b.Valid) : (imax a b).Valid := by
  unfold imax; split <;> assumption

/-- The earlier of two valid instants is valid. -/
theorem imin_valid {a b : Instant} (ha : a.Valid) (hb : b.Valid) : (imin a b).Valid := by
  unfold imin; split <;> assumption

/-- When the first instant is strictly earlier, the later of the two is the second. -/
theorem imax_eq_right {a b : Instant} (h : a.lt b) : imax a b = b := by
  unfold imax; exact if_pos h

/-- Advancing days preserves validity. -/
theorem addDaysN_valid (n : Nat) {t : Instant} (h : t.Valid) : (addDaysN n t).Valid :=
  (addDaysN_spec n t h).1

/-- The series end of the database generator is valid for valid inputs. -/
theorem supaSeriesEnd_valid {base : Event} {wEnd : Instant}
    (hb : base.startDate.Valid) (hw : wEnd.Valid) : (supaSeriesEnd base wEnd).Valid := by
  unfold supaSeriesEnd
  split
  · exact imin_valid (addDaysN_valid _ hb) hw
  · exact hw

/-- The series end of the database generator never exceeds the window end. -/
theorem supaSeriesEnd_le (base : Event) (wEnd : Instant) :
    (supaSeriesEnd base wEnd).le wEnd := by
  unfold supaSeriesEnd
  split
  · exact imin_le_right _ _
  · exact Instant.le_refl _

/-- The enhanced memory generator emits at most as many occurrences as it has
iterations left. -/
theorem memGenLoop_length_le (pat : String) (base : Event) (send : Instant)
    (dels mods : List DayKey) :
    ∀ (n : Nat) (c : Instant),
      (memGenLoop pat base send dels mods n c).length ≤ n := by
  intro n
  induction n with
  | zero => intro c; simp [memGenLoop]
  | succ k ih =>
    intro c
    unfold memGenLoop
    split
    · split
      · exact Nat.le_succ_of_le (ih _)
      · simpa using Nat.succ_le_succ (ih _)
    · simp

/-- Unfolding equation of the database generator loop at positive fuel. -/
theorem supaGenLoop_succ (pat : String) (base : Event) (send : Instant)
    (dels mods : List DayKey) (n : Nat) (c : Instant) :
    supaGenLoop pat base send dels mods (n + 1) c =
      if c.lt send then
        if dayKey c ∈ dels ∨ dayKey c ∈ mods then
          supaGenLoop pat base send dels mods n (supaStep pat c)
        else supaInstance base c :: supaGenLoop pat base send dels mods n (supaStep pat c)
      else [] := rfl

/-- A cursor whose day rank is already past the series end produces nothing,
whatever the fuel: the loop guard fails at once. -/
theorem supaGenLoop_empty_of_rank (pat : String) (base : Event) (send : Instant)
    (dels mods : List DayKey) (hsend : send.Valid) (f : Nat) (c : Instant)
    (hc : c.Valid) (hr : rankDayZ send < rankDayZ c) :
    supaGenLoop pat base send dels mods f c = [] := by
  cases f with
  | zero => rfl
  | succ n =>
    rw [supaGenLoop_succ, if_neg]
    intro hlt
    have := rankDayZ_le_of_lt hc hsend hlt
    omega

/-- With enough fuel, the database generator loop's result no longer depends
on the fuel: the loop's own guard, not the fuel, ends the recursion.  This is
the termination argument for the source's uncapped `while` loop: every step
advances the cursor by at least one calendar day. -/
theorem supaGenLoop_fuel_stable (pat : String) (base : Event) (send : Instant)
    (dels mods : List DayKey) (hsend : send.Valid) :
    ∀ (f1 f2 : Nat) (c : Instant), c.Valid →
      (rankDayZ send - rankDayZ c).toNat + 1 ≤ f1 →
      (rankDayZ send - rankDayZ c).toNat + 1 ≤ f2 →
      supaGenLoop pat base send dels mods f1 c =
        supaGenLoop pat base send dels mods f2 c := by
  intro f1
  induction f1 with
  | zero => intro f2 c _ h1 _; omega
  | succ g ih =>
    intro f2 c hc h1 h2
    match f2, h2 with
    | f2' + 1, h2 =>
      rw [supaGenLoop_succ, supaGenLoop_succ]
      by_cases hguard : c.lt send
      · rw [if_pos hguard, if_pos hguard]
        have hrle := rankDayZ_le_of_lt hc hsend hguard
        have hstep := supaStep_spec pat hc
        have hrank := hstep.2.2.1
        by_cases hnext : rankDayZ (supaStep pat c) ≤ rankDayZ send
        · have hrec := ih f2' (supaStep pat c) hstep.1 (by omega) (by omega)
          split
          · exact hrec
          · rw [hrec]
        · have hz1 := supaGenLoop_empty_of_rank pat base send dels mods hsend g
            (supaStep pat c) hstep.1 (by omega)
          have hz2 := supaGenLoop_empty_of_rank pat base send dels mods hsend f2'
            (supaStep pat c) hstep.1 (by omega)
          split
          · rw [hz1, hz2]
          · rw [hz1, hz2]
      · rw [if_neg hguard, if_neg hguard]

/-- Every occurrence the database generator loop emits starts no earlier than
the cursor and strictly before the series end. -/
theorem supaGenLoop_bounds (pat : String) (base : Event) (send : Instant)
    (dels mods : List DayKey) :
    ∀ (fuel : Nat) (c : Instant), c.Valid →
      ∀ e ∈ supaGenLoop pat base send dels mods fuel c,
        c.le e.startDate ∧ e.startDate.lt send := by
  intro fuel
  induction fuel with
  | zero => intro c _ e he; simp [supaGenLoop] at he
  | succ k ih =>
    intro c hc e he
    unfold supaGenLoop at he
    by_cases hguard : c.lt send
    · rw [if_pos hguard] at he
      have hstep := supaStep_spec pat hc
      split at he
      · have := ih (supaStep pat c) hstep.1 e he
        exact ⟨Instant.le_trans (Instant.le_of_lt hstep.2.1) this.1, this.2⟩
      · rcases List.mem_cons.mp he with rfl | htail
        · exact ⟨Instant.le_refl _, hguard⟩
        · have := ih (supaStep pat c) hstep.1 e htail
          exact ⟨Instant.le_trans (Instant.le_of_lt hstep.2.1) this.1, this.2⟩
    · rw [if_neg hguard] at he
      simp at he

/-- Every occurrence the database generator loop emits starts at some iterate
of the stepper from the cursor, and carries the day-keyed composite id and
parent link derived from that start. -/
theorem supaGenLoop_iterates (pat : String) (base : Event) (send : Instant)
    (dels mods : List DayKey) :
    ∀ (fuel : Nat) (c : Instant),
      ∀ e ∈ supaGenLoop pat base send dels mods fuel c,
        ∃ k, e.startDate = (supaStep pat)^[k] c ∧
          e.id = EventId.recurDay base.id (dayKey e.startDate) ∧
          e.parentEventId = some base.id := by
  intro fuel
  induction fuel with
  | zero => intro c e he; simp [supaGenLoop] at he
  | succ n ih =>
    intro c e he
    unfold supaGenLoop at he
    by_cases hguard : c.lt send
    · rw [if_pos hguard] at he
      split at he
      · obtain ⟨k, hk, hid⟩ := ih (supaStep pat c) e he
        exact ⟨k + 1, by rw [hk, Function.iterate_succ_apply], hid⟩
      · rcases List.mem_cons.mp he with rfl | htail
        · exact ⟨0, rfl, rfl, rfl⟩
        · obtain ⟨k, hk, hid⟩ := ih (supaStep pat c) e htail
          exact ⟨k + 1, by rw [hk, Function.iterate_succ_apply], hid⟩
    · rw [if_neg hguard] at he
      simp at he

/-- Every occurrence the enhanced memory generator loop emits starts at some
iterate of the memory stepper from the cursor, and carries the
instant-keyed composite id and parent link derived from that start. -/
theorem memGenLoop_iterates (pat : String) (base : Event) (send : Instant)
    (dels mods : List DayKey) :
    ∀ (fuel : Nat) (c : Instant),
      ∀ e ∈ memGenLoop pat base send dels mods fuel c,
        ∃ k, e.startDate = (memStep pat)^[k] c ∧
          e.id = EventId.recurMs base.id e.startDate ∧
          e.parentEventId = some base.id := by
  intro fuel
  induction fuel with
  | zero => intro c e he; simp [memGenLoop] at he
  | succ n ih =>
    intro c e he
    unfold memGenLoop at he
    by_cases hguard : c.lt send
    · rw [if_pos hguard] at he
      split at he
      · obtain ⟨k, hk, hid⟩ := ih (memStep pat c) e he
        exact ⟨k + 1, by rw [hk, Function.iterate_succ_apply], hid⟩
      · rcases List.mem_cons.mp he with rfl | htail
        · exact ⟨0, rfl, rfl, rfl⟩
        · obtain ⟨k, hk, hid⟩ := ih (memStep pat c) e htail
          exact ⟨k + 1, by rw [hk, Function.iterate_succ_apply], hid⟩
    · rw [if_neg hguard] at he
      simp at he

/-- A loop with positive fuel whose cursor is before the series end and whose
day key is not excepted emits the cursor occurrence first (database loop). -/
theorem supaGenLoop_head (pat : String) (base : Event) (send : Instant)
    (dels mods : List DayKey) (fuel : Nat) (c : Instant)
    (hfuel : 0 < fuel) (hguard : c.lt send)
    (hdel : dayKey c ∉ dels) (hmod : dayKey c ∉ mods) :
    ∃ rest, supaGenLoop pat base send dels mods fuel c = supaInstance base c :: rest := by
  match fuel, hfuel with
  | n + 1, _ =>
    refine ⟨supaGenLoop pat base send dels mods n (supaStep pat c), ?_⟩
    rw [supaGenLoop, if_pos hguard, if_neg (by simp [hdel, hmod])]

/-- A loop with positive fuel whose cursor is before the series end and whose
day key is not excepted emits the cursor occurrence first (memory loop). -/
theorem memGenLoop_head (pat : String) (base : Event) (send : Instant)
    (dels mods : List DayKey) (fuel : Nat) (c : Instant)
    (hfuel : 0 < fuel) (hguard : c.lt send)
    (hdel : dayKey c ∉ dels) (hmod : dayKey c ∉ mods) :
    ∃ rest, memGenLoop pat base send dels mods fuel c = memInstance base c :: rest := by
  match fuel, hfuel with
  | n + 1, _ =>
    refine ⟨memGenLoop pat base send dels mods n (memStep pat c), ?_⟩
    rw [memGenLoop, if_pos hguard, if_neg (by simp [hdel, hmod])]

/-- Stable insertion produces a permutation of consing. -/
theorem insertByStart_perm (e : Event) (l : List Event) :
    (insertByStart e l).Perm (e :: l) := by
  induction l with
  | nil => simp [insertByStart]
  | cons x xs ih =>
    unfold insertByStart
    split
    · exact List.Perm.refl _
    · exact (List.Perm.cons x ih).trans (List.Perm.swap e x xs)

/-- The stable sort produces a permutation of its input. -/
theorem sortByStart_perm (l : List Event) : (sortByStart l).Perm l := by
  suffices h : ∀ (l acc : List Event),
      (l.foldl (fun acc e => insertByStart e acc) acc).Perm (acc ++ l) by
    simpa using h l []
  intro l
  induction l with
  | nil => intro acc; simp
  | cons x xs ih =>
    intro acc
    have h1 := ih (insertByStart x acc)
    have h2 : (insertByStart x acc ++ xs).Perm ((x :: acc) ++ xs) :=
      (insertByStart_perm x acc).append_right xs
    have h3 : ((x :: acc) ++ xs).Perm (acc ++ x :: xs) := List.perm_middle.symm
    exact (h1.trans h2).trans h3

/-- Membership is preserved by the stable sort. -/
theorem mem_sortByStart {e : Event} {l : List Event} :
    e ∈ sortByStart l ↔ e ∈ l := (sortByStart_perm l).mem_iff

/-- Counting is preserved by the stable sort. -/
theorem countP_sortByStart (p : Event → Bool) (l : List Event) :
    (sortByStart l).countP p = l.countP p := (sortByStart_perm l).countP_eq p

/-!
Concrete fixtures used by the claim theorems.
-/

/-- 2024-03-04T09:00, the Standup master's start. -/
def iMar4 : Instant := ⟨2024, 3, 4, 32400000⟩

/-- 2024-03-11T09:00, one week later. -/
def iMar11 : Instant := ⟨2024, 3, 11, 32400000⟩

/-- 2024-03-01T00:00. -/
def iMar1 : Instant := ⟨2024, 3, 1, 0⟩

/-- A recurring weekly master running for one week. -/
def masterWeek1 : Event :=
  { id := EventId.base 1, title := "Standup", description := none
    startDate := iMar4, endDate := none, isRecurring := true
    recurringPattern := some "weekly", recurringWeeks := some (RWeeks.count 1)
    parentEventId := none, originalDate := none }

/-- Number of exception rows of a store carrying a given parent id and
exception date: the uniqueness invariant requires this never to exceed one. -/
def excPairCount (s : Store) (pid : EventId) (d : Instant) : Nat :=
  s.exceptions.countP (fun ex => ex.parentEventId == pid && ex.exceptionDate == d)

/-- Whether no two exception rows of a list share parent id and exception
date (the uniqueness invariant of the specification). -/
def exceptionKeysUnique : List Exc → Bool
  | [] => true
  | x :: xs =>
    !(xs.any (fun y => x.parentEventId == y.parentEventId &&
      x.exceptionDate == y.exceptionDate)) && exceptionKeysUnique xs

/-- The empty store. -/
def store0 : Store := ⟨[], [], 0⟩

/-- A store holding only the one-week weekly master. -/
def storeWeek1 : Store := ⟨[masterWeek1], [], 2⟩

/-- Claim C3: calling the single-occurrence delete twice for the same parent and
date leaves the store with two exception records sharing the
(parentEventId, exceptionDate) pair: the claimed uniqueness invariant is
violated by the code, which inserts unconditionally. -/
theorem C3_counterexample :
    exceptionKeysUnique
      ((memDeleteRecurringInstance
        ((memDeleteRecurringInstance storeWeek1 (EventId.base 1) iMar11).2)
        (EventId.base 1) iMar11).2).exceptions = false := by decide

/-- Claim C3 (amended): the instance mutators insert exception rows
unconditionally, so each single-occurrence delete adds exactly one more
record for its (parentEventId, exceptionDate) pair — two identical deletes
on the memory backend leave two records for the pair, and a database-backend
delete that succeeds adds one record for the pair with no uniqueness check. -/
theorem C3_no_uniqueness :
    ∀ (s : Store) (pid : EventId) (d : Instant),
      excPairCount
        ((memDeleteRecurringInstance
          ((memDeleteRecurringInstance s pid d).2) pid d).2) pid d =
        excPairCount s pid d + 2 ∧
      (∀ s', supaDeleteRecurringInstance s pid d = some s' →
        excPairCount s' pid d = excPairCount s pid d + 1) := by
  intro s pid d
  constructor
  · unfold memDeleteRecurringInstance excPairCount
    simp [List.countP_append, List.countP_cons]
  · intro s' hs'
    unfold supaDeleteRecurringInstance at hs'
    split at hs'
    · cases hs'
      unfold excPairCount
      simp [List.countP_append, List.countP_cons]
    · cases hs'

/-- Claim C3 witness: on a concrete store the two identical deletes leave two
records for the pair, and the database-backend delete adds one. -/
theorem C3_no_uniqueness_witness :
    excPairCount
      ((memDeleteRecurringInstance
        ((memDeleteRecurringInstance storeWeek1 (EventId.base 1) iMar11).2)
        (EventId.base 1) iMar11).2) (EventId.base 1) iMar11 =
      excPairCount storeWeek1 (EventId.base 1) iMar11 + 2 ∧
    excPairCount { storeWeek1 with
        exceptions := storeWeek1.exceptions ++
          [⟨EventId.base 1, iMar11, ExcType.deleted, none⟩] }
      (EventId.base 1) iMar11 =
      excPairCount storeWeek1 (EventId.base 1) iMar11 + 1 :=
  ⟨(C3_no_uniqueness storeWeek1 (EventId.base 1) iMar11).1,
   (C3_no_uniqueness storeWeek1 (EventId.base 1) iMar11).2 _ (by decide)⟩

/-- Claim C7: the memory backend's single-occurrence delete with a parent id that
references no stored event still returns `true` and records the exception —
it does not fail with a not-found error and does write an exception record. -/
theorem C7_counterexample :
    (memDeleteRecurringInstance store0 (EventId.base 9) iMar11).1 = true ∧
    (memDeleteRecurringInstance store0 (EventId.base 9) iMar11).2.exceptions =
      [⟨EventId.base 9, iMar11, ExcType.deleted, none⟩] ∧
    store0.events.any (fun e => e.id == EventId.base 9) = false := by decide

/-- Claim C7 (amended): the memory backend's delete never checks the parent: it
records the exception and returns `true` for every parent id.  On the
database backend the function body performs no check either, but the schema's
foreign key rejects the insert when the parent is missing (nothing written),
surfacing a constraint violation rather than a NotFoundError; when the parent
exists the `deleted` exception row is inserted. -/
theorem C7_delete_instance :
    ∀ (s : Store) (pid : EventId) (d : Instant),
      ((memDeleteRecurringInstance s pid d).1 = true ∧
        (memDeleteRecurringInstance s pid d).2.exceptions =
          s.exceptions ++ [⟨pid, d, ExcType.deleted, none⟩]) ∧
      (s.events.any (fun e => e.id == pid) = false →
        supaDeleteRecurringInstance s pid d = none) ∧
      (s.events.any (fun e => e.id == pid) = true →
        supaDeleteRecurringInstance s pid d =
          some { s with exceptions := s.exceptions ++ [⟨pid, d, ExcType.deleted, none⟩] }) := by
  intro s pid d
  refine ⟨⟨rfl, rfl⟩, ?_, ?_⟩
  · intro h
    unfold supaDeleteRecurringInstance
    rw [if_neg (by simp [h])]
  · intro h
    unfold supaDeleteRecurringInstance
    rw [if_pos (by simp [h])]

/-- Claim C7 witness: on concrete stores, the delete on a missing parent is
rejected by the database backend and accepted by the memory backend. -/
theorem C7_delete_instance_witness :
    supaDeleteRecurringInstance store0 (EventId.base 9) iMar11 = none ∧
    (memDeleteRecurringInstance store0 (EventId.base 9) iMar11).1 = true ∧
    supaDeleteRecurringInstance storeWeek1 (EventId.base 1) iMar11 =
      some { storeWeek1 with
        exceptions := storeWeek1.exceptions ++
          [⟨EventId.base 1, iMar11, ExcType.deleted, none⟩] } :=
  ⟨(C7_delete_instance store0 (EventId.base 9) iMar11).2.1 (by decide),
   (C7_delete_instance store0 (EventId.base 9) iMar11).1.1,
   (C7_delete_instance storeWeek1 (EventId.base 1) iMar11).2.2 (by decide)⟩

/-- Claim C8: editing an occurrence of a parent whose start differs from the
occurrence date, with an update that leaves `startDate` unset, yields a
standalone event starting at the occurrence date — not at the parent's start
as "seeded from the parent's fields overridden by the updates" would give. -/
theorem C8_counterexample :
    ((supaUpdateRecurringInstance storeWeek1 (EventId.base 1) iMar11
        ⟨none, none, none, none⟩).1.map (fun e => e.startDate) = some iMar11) ∧
    (iMar11 == masterWeek1.startDate) = false := by decide

/-- Claim C8 (amended): both backends' editInstance agree; with a missing parent
they return null and write nothing; with a found parent they create the
standalone modified event with title, description and end date seeded from
the parent overridden by the updates, but start date seeded from the
occurrence date (not the parent's start) when the update omits it, with
recurrence fields cleared, `isRecurring` forced false, the parent link and
original date set, a paired `modified` exception pointing at the new id, and
return the new event. -/
theorem C8_edit_instance :
    ∀ (s : Store) (pid : EventId) (d : Instant) (u : Updates),
      memUpdateRecurringInstance s pid d u = supaUpdateRecurringInstance s pid d u ∧
      (s.events.find? (fun e => e.id == pid) = none →
        supaUpdateRecurringInstance s pid d u = (none, s)) ∧
      (∀ parent, s.events.find? (fun e => e.id == pid) = some parent →
        ∃ ev, supaUpdateRecurringInstance s pid d u =
            (some ev,
             ⟨s.events ++ [ev],
              s.exceptions ++ [⟨pid, d, ExcType.modified, some ev.id⟩],
              s.nextId + 1⟩) ∧
          ev.id = EventId.base s.nextId ∧
          ev.title = u.title.getD parent.title ∧
          ev.description = u.description.or parent.description ∧
          ev.startDate = u.startDate.getD d ∧
          ev.endDate = u.endDate.or parent.endDate ∧
          ev.isRecurring = false ∧
          ev.recurringPattern = none ∧
          ev.recurringWeeks = none ∧
          ev.parentEventId = some pid ∧
          ev.originalDate = some d) := by
  intro s pid d u
  refine ⟨?_, ?_, ?_⟩
  · unfold memUpdateRecurringInstance supaUpdateRecurringInstance
    rfl
  · intro h
    unfold supaUpdateRecurringInstance
    rw [h]
  · intro parent h
    unfold supaUpdateRecurringInstance
    rw [h]
    exact ⟨_, rfl, rfl, rfl, rfl, rfl, rfl, rfl, rfl, rfl, rfl, rfl⟩

/-- Claim C8 witness: on the concrete one-master store the edit creates the
standalone event and paired exception. -/
theorem C8_edit_instance_witness :
    ∃ ev, supaUpdateRecurringInstance storeWeek1 (EventId.base 1) iMar11
        ⟨some "Standup (moved)", none, none, none⟩ =
      (some ev,
       ⟨storeWeek1.events ++ [ev],
        storeWeek1.exceptions ++ [⟨EventId.base 1, iMar11, ExcType.modified, some ev.id⟩],
        storeWeek1.nextId + 1⟩) ∧
      ev.title = "Standup (moved)" ∧ ev.startDate = iMar11 ∧
      ev.isRecurring = false ∧ ev.parentEventId = some (EventId.base 1) := by
  obtain ⟨ev, heq, hid, htitle, hdesc, hstart, hend, hrec, hpat, hwk, hpar, horig⟩ :=
    (C8_edit_instance storeWeek1 (EventId.base 1) iMar11
      ⟨some "Standup (moved)", none, none, none⟩).2.2 masterWeek1 (by decide)
  exact ⟨ev, heq, htitle, hstart, hrec, hpar⟩

/-- The standalone modified event created for the 2024-03-04 occurrence. -/
def standaloneX : Event :=
  { id := EventId.base 2, title := "Standup (moved)", description := none
    startDate := ⟨2024, 3, 12, 50400000⟩, endDate := none, isRecurring := false
    recurringPattern := none, recurringWeeks := none
    parentEventId := some (EventId.base 1), originalDate := some iMar4 }

/-- Store with the weekly master, its modified occurrence's standalone event,
and the pairing `modified` exception. -/
def storeModified : Store :=
  ⟨[masterWeek1, standaloneX],
   [⟨EventId.base 1, iMar4, ExcType.modified, some (EventId.base 2)⟩], 3⟩

/-- Claim C1: in the database backend's read path, a standalone modified event
appears twice in the output of `getEvents` — once passed through as a
non-recurring row and once re-appended by the separate modified-instances
query — although the generated occurrence for its date is correctly
suppressed.  The claim (and the source's own comment "they'll be added
separately") require it to appear exactly once. -/
theorem C1_modified_event_duplicated :
    ((supaGetEvents storeModified iMar1).countP
      (fun e => e.id == EventId.base 2)) = 2 ∧
    ((supaGetEvents storeModified iMar1).countP
      (fun e => e.id == EventId.recurDay (EventId.base 1) (dayKey iMar4))) = 0 := by
  decide

/-- Store with the weekly master, its modified occurrence's standalone event
and pairing exception, for the delete-cascade claim. -/
def storeForDelete : Store := storeModified

/-- Claim C4: deleting the master removes its exception rows via the schema's
foreign-key cascade on the database backend, but the standalone modified
event survives with a dangling parent link and keeps appearing in subsequent
reads; the memory backend's delete removes only the master record, leaving
even the exception rows in place. -/
theorem C4_cascade_incomplete :
    ((supaDeleteEvent storeForDelete (EventId.base 1)).2.events = [standaloneX] ∧
      (supaDeleteEvent storeForDelete (EventId.base 1)).2.exceptions = [] ∧
      (supaGetEvents (supaDeleteEvent storeForDelete (EventId.base 1)).2 iMar1).any
        (fun e => e.parentEventId == some (EventId.base 1)) = true) ∧
    ((memDeleteEvent storeForDelete (EventId.base 1)).2.exceptions =
      [⟨EventId.base 1, iMar4, ExcType.modified, some (EventId.base 2)⟩]) := by
  decide

/-- A weekly master starting before the query window. -/
def masterBeforeWindow : Event :=
  { id := EventId.base 1, title := "Standup", description := none
    startDate := ⟨2024, 2, 26, 32400000⟩, endDate := none, isRecurring := true
    recurringPattern := some "weekly", recurringWeeks := some RWeeks.indefinite
    parentEventId := none, originalDate := none }

/-- Store holding only the early-starting weekly master. -/
def storeBeforeWindow : Store := ⟨[masterBeforeWindow], [], 2⟩

/-- 2024-03-22T00:00, the window end of the §8 scenario. -/
def iMar22 : Instant := ⟨2024, 3, 22, 0⟩

/-- Claim C6: the database backend's range query filters the `events` rows by
`startDate ≥ rangeStart` before expansion, so a recurring master starting
before the window start is never handed to the occurrence generator and the
query returns nothing — although the generator itself, started at
`max(startDate, windowStart)`, would produce three in-window occurrences. -/
theorem C6_early_master_dropped :
    supaGetEventsByDateRange storeBeforeWindow iMar1 iMar22 = [] ∧
    (supaGenerate masterBeforeWindow iMar1 iMar22 []).length = 3 := by
  decide

/-- Claim C9: the two backends' steppers disagree: stepping 2024-01-31 by one
month gives 2024-03-02 on the memory backend (JS `setMonth` rolls the
overflow into March) but 2024-02-29 on the database backend (date-fns
clamps to the end of February), so the steppers do not return the same
result for every input. -/
theorem C9_counterexample :
    (memStep "monthly" ⟨2024, 1, 31, 0⟩ == supaStep "monthly" ⟨2024, 1, 31, 0⟩) = false ∧
    memStep "monthly" ⟨2024, 1, 31, 0⟩ = ⟨2024, 3, 2, 0⟩ ∧
    supaStep "monthly" ⟨2024, 1, 31, 0⟩ = ⟨2024, 2, 29, 0⟩ := by decide

/-- Claim C9 (amended): both steppers add exactly one calendar day for `daily`,
seven for `weekly`, and fall back to the weekly step for any unrecognized
pattern, and on those patterns the backends agree for every instant.  For
`monthly` and `yearly` the backends agree exactly when the day-of-month is
valid in the target month; on overflow each backend follows its own
deterministic rule — the database stepper clamps to the last day of the
target month, the memory stepper keeps the day and rolls the excess into the
following month — and the two rules differ. -/
theorem C9_stepper_semantics :
    (∀ t : Instant, memStep "daily" t = addDaysN 1 t ∧ supaStep "daily" t = addDaysN 1 t) ∧
    (∀ t : Instant, memStep "weekly" t = addDaysN 7 t ∧ supaStep "weekly" t = addDaysN 7 t) ∧
    (∀ (p : String) (t : Instant), p ≠ "daily" → p ≠ "weekly" → p ≠ "monthly" →
      p ≠ "yearly" → memStep p t = addDaysN 7 t ∧ supaStep p t = addDaysN 7 t) ∧
    (∀ t : Instant,
      t.d ≤ daysInMonth (supaAddMonths 1 t).y (supaAddMonths 1 t).m →
      memStep "monthly" t = supaStep "monthly" t) ∧
    (∀ t : Instant,
      t.d ≤ daysInMonth (supaAddYears 1 t).y (supaAddYears 1 t).m →
      memStep "yearly" t = supaStep "yearly" t) ∧
    (∀ t : Instant, t.Valid →
      daysInMonth (supaAddMonths 1 t).y (supaAddMonths 1 t).m < t.d →
      supaStep "monthly" t =
        ⟨(supaAddMonths 1 t).y, (supaAddMonths 1 t).m,
          daysInMonth (supaAddMonths 1 t).y (supaAddMonths 1 t).m, t.ms⟩ ∧
      memStep "monthly" t =
        ⟨(supaAddMonths 1 t).y, (supaAddMonths 1 t).m + 1,
          t.d - daysInMonth (supaAddMonths 1 t).y (supaAddMonths 1 t).m, t.ms⟩) := by
  have hmd : ∀ t : Instant, memStep "daily" t = addDaysN 1 t := fun t => by simp [memStep]
  have hsd : ∀ t : Instant, supaStep "daily" t = addDaysN 1 t := fun t => by simp [supaStep]
  have hmw : ∀ t : Instant, memStep "weekly" t = addDaysN 7 t := fun t => by simp [memStep]
  have hsw : ∀ t : Instant, supaStep "weekly" t = addDaysN 7 t := fun t => by simp [supaStep]
  have hmm : ∀ t : Instant, memStep "monthly" t = memAddMonths 1 t := fun t => by simp [memStep]
  have hsm : ∀ t : Instant, supaStep "monthly" t = supaAddMonths 1 t := fun t => by simp [supaStep]
  have hmy : ∀ t : Instant, memStep "yearly" t = memAddYears 1 t := fun t => by simp [memStep]
  have hsy : ∀ t : Instant, supaStep "yearly" t = supaAddYears 1 t := fun t => by simp [supaStep]
  refine ⟨fun t => ⟨hmd t, hsd t⟩, fun t => ⟨hmw t, hsw t⟩, ?_, ?_, ?_, ?_⟩
  · intro p t h1 h2 h3 h4
    unfold memStep supaStep
    rw [if_neg h1, if_neg h2, if_neg h3, if_neg h4,
      if_neg h1, if_neg h2, if_neg h3, if_neg h4]
    exact ⟨rfl, rfl⟩
  · intro t h
    rw [hmm t, hsm t]
    unfold supaAddMonths at h
    dsimp only at h
    unfold memAddMonths supaAddMonths fixupMonth
    dsimp only
    rw [if_pos h, Nat.min_eq_left h]
  · intro t h
    rw [hmy t, hsy t]
    unfold supaAddYears at h
    dsimp only at h
    unfold memAddYears supaAddYears fixupMonth
    rw [if_pos h, Nat.min_eq_left h]
  · intro t ht h
    obtain ⟨h1, h2, h3, h4, h5⟩ := ht
    unfold supaAddMonths at h ⊢
    dsimp only at h ⊢
    constructor
    · rw [hsm t]
      unfold supaAddMonths
      dsimp only
      rw [Nat.min_eq_right (Nat.le_of_lt h)]
    · rw [hmm t]
      have hmlt : (t.m - 1 + 1) % 12 + 1 < 12 := by
        by_cases hm : (t.m - 1 + 1) % 12 + 1 = 12
        · exfalso
          rw [hm] at h
          rw [daysInMonth_twelve] at h
          have := daysInMonth_bounds t.y t.m
          omega
        · omega
      unfold memAddMonths fixupMonth
      dsimp only
      rw [if_neg (by omega), if_pos hmlt]

/-- Claim C9 witness: mid-month instants step identically on both backends, and an
unrecognized pattern falls back to the weekly step. -/
theorem C9_stepper_semantics_witness :
    memStep "monthly" ⟨2024, 1, 15, 0⟩ = supaStep "monthly" ⟨2024, 1, 15, 0⟩ ∧
    memStep "biweekly" ⟨2024, 1, 15, 0⟩ = addDaysN 7 ⟨2024, 1, 15, 0⟩ :=
  ⟨C9_stepper_semantics.2.2.2.1 ⟨2024, 1, 15, 0⟩ (by decide),
   (C9_stepper_semantics.2.2.1 "biweekly" ⟨2024, 1, 15, 0⟩ (by decide) (by decide)
     (by decide) (by decide)).1⟩

/-- Day stepping composes additively. -/
theorem addDaysN_add (a b : Nat) (t : Instant) :
    addDaysN a (addDaysN b t) = addDaysN (a + b) t := by
  unfold addDaysN
  exact (Function.iterate_add_apply nextDay a b t).symm

/-- Day stepping is strictly monotone in the day count on valid instants. -/
theorem addDaysN_lt_addDaysN {c : Instant} (hc : c.Valid) {k n : Nat} (h : k < n) :
    (addDaysN k c).lt (addDaysN n c) := by
  have heq : addDaysN n c = addDaysN (n - k) (addDaysN k c) := by
    rw [addDaysN_add]
    congr 1
    omega
  rw [heq]
  exact (addDaysN_spec (n - k) (addDaysN k c) (addDaysN_valid k hc)).2.2.2.2 (by omega)

/-- Days within the window are all emitted by the daily database generator
loop when no exception is present: the loop's output has at least one
occurrence per in-window day, given enough fuel. -/
theorem supaGenLoop_daily_lower (base : Event) (send : Instant) :
    ∀ (n fuel : Nat) (c : Instant), c.Valid → n ≤ fuel →
      (∀ k, k < n → (addDaysN k c).lt send) →
      n ≤ (supaGenLoop "daily" base send [] [] fuel c).length := by
  intro n
  induction n with
  | zero => intro fuel c _ _ _; omega
  | succ k ih =>
    intro fuel c hc hle hall
    match fuel, hle with
    | f + 1, hle =>
      rw [supaGenLoop_succ]
      have hguard : c.lt send := by
        have := hall 0 (by omega)
        simpa [addDaysN] using this
      rw [if_pos hguard, if_neg (by simp)]
      have hstep : supaStep "daily" c = addDaysN 1 c := by simp [supaStep]
      rw [List.length_cons, hstep]
      have htail := ih f (addDaysN 1 c) (addDaysN_valid 1 hc) (by omega) ?_
      · omega
      · intro j hj
        rw [addDaysN_add]
        exact hall (j + 1) (by omega)

/-- 2024-01-01T00:00. -/
def iJan1 : Instant := ⟨2024, 1, 1, 0⟩

/-- An indefinite daily master starting 2024-01-01T00:00. -/
def dailyIndefinite : Event :=
  { id := EventId.base 1, title := "Daily", description := none
    startDate := iJan1, endDate := none, isRecurring := true
    recurringPattern := some "daily", recurringWeeks := some RWeeks.indefinite
    parentEventId := none, originalDate := none }

/-- Claim C2: the database backend's generator has no iteration cap: an indefinite
daily series expanded over a 502-day window emits more than 500 occurrences,
so no hard 500-step cap truncates the series on that backend. -/
theorem C2_counterexample :
    500 < (supaGenerate dailyIndefinite iJan1 (addDaysN 502 iJan1) []).length := by
  have hgen : supaGenerate dailyIndefinite iJan1 (addDaysN 502 iJan1) [] =
      supaGenLoop "daily" dailyIndefinite (addDaysN 502 iJan1) [] []
        (fuelFor iJan1 (addDaysN 502 iJan1)) iJan1 := rfl
  have hfuel : 501 ≤ fuelFor iJan1 (addDaysN 502 iJan1) := by
    have := (addDaysN_spec 502 iJan1 (by decide)).2.2.1
    unfold fuelFor
    omega
  have hall : ∀ k, k < 501 → (addDaysN k iJan1).lt (addDaysN 502 iJan1) :=
    fun k hk => addDaysN_lt_addDaysN (by decide) (by omega)
  have := supaGenLoop_daily_lower dailyIndefinite (addDaysN 502 iJan1) 501
    (fuelFor iJan1 (addDaysN 502 iJan1)) iJan1 (by decide) hfuel hall
  rw [hgen]
  omega

/-- Claim C2 (amended): every expansion terminates with a finite occurrence list,
but the 500-step iteration cap exists only in the memory backend's generator;
the database backend's loop is bounded by the window alone — it terminates
because every pattern's step advances the cursor by at least one calendar
day, which the fuel-stability equation expresses: adding any extra fuel
beyond the day-rank bound leaves its output unchanged. -/
theorem C2_termination_and_cap :
    (∀ (base : Event) (wStart wEnd : Instant) (dels mods : List DayKey),
      (memGenerate base wStart wEnd dels mods).length ≤ 500) ∧
    (∀ (base : Event) (wStart wEnd : Instant) (excs : List Exc) (extra : Nat),
      base.startDate.Valid → wStart.Valid → wEnd.Valid →
      supaGenLoop (base.recurringPattern.getD "") base (supaSeriesEnd base wEnd)
        (delKeys excs) (modKeys excs)
        (fuelFor (imax base.startDate wStart) (supaSeriesEnd base wEnd) + extra)
        (imax base.startDate wStart) =
      supaGenerate base wStart wEnd excs) := by
  constructor
  · intro base wStart wEnd dels mods
    exact memGenLoop_length_le _ _ _ _ _ 500 _
  · intro base wStart wEnd excs extra hb hs hw
    have hsend := supaSeriesEnd_valid hb hw
    have hc0 := imax_valid hb hs
    exact supaGenLoop_fuel_stable _ base _ _ _ hsend _ _ _ hc0
      (by unfold fuelFor; omega) (by unfold fuelFor; omega)

/-- Claim C2 witness: the memory generator's output for the §8 Standup scenario is
within the cap, and the database generator's output is fuel-stable on a
concrete window. -/
theorem C2_termination_and_cap_witness :
    (memGenerate masterWeek1 iMar1 iMar22 [] []).length ≤ 500 ∧
    supaGenLoop "daily" dailyIndefinite (supaSeriesEnd dailyIndefinite iMar22)
      (delKeys []) (modKeys [])
      (fuelFor (imax dailyIndefinite.startDate iJan1)
        (supaSeriesEnd dailyIndefinite iMar22) + 7)
      (imax dailyIndefinite.startDate iJan1) =
    supaGenerate dailyIndefinite iJan1 iMar22 [] :=
  ⟨C2_termination_and_cap.1 masterWeek1 iMar1 iMar22 [] [],
   C2_termination_and_cap.2 dailyIndefinite iJan1 iMar22 [] 7
     (by decide) (by decide) (by decide)⟩

/-- Unfolding equation of the database generator. -/
theorem supaGenerate_def (base : Event) (wS wE : Instant) (excs : List Exc) :
    supaGenerate base wS wE excs =
      supaGenLoop (base.recurringPattern.getD "") base (supaSeriesEnd base wE)
        (delKeys excs) (modKeys excs)
        (fuelFor (imax base.startDate wS) (supaSeriesEnd base wE))
        (imax base.startDate wS) := rfl

/-- Every occurrence the database generator emits lies in `[wS, wE)`. -/
theorem supaGenerate_bounds {base : Event} {wS wE : Instant} {excs : List Exc}
    (hb : base.startDate.Valid) (hs : wS.Valid) :
    ∀ e ∈ supaGenerate base wS wE excs, wS.le e.startDate ∧ e.startDate.lt wE := by
  intro e he
  rw [supaGenerate_def] at he
  have hb' := supaGenLoop_bounds (base.recurringPattern.getD "") base
    (supaSeriesEnd base wE) (delKeys excs) (modKeys excs) _ _ (imax_valid hb hs) e he
  exact ⟨Instant.le_trans (imax_le_right _ _) hb'.1,
    Instant.lt_of_lt_of_le hb'.2 (supaSeriesEnd_le base wE)⟩

/-- A yearly master starting 2024-03-04T09:00. -/
def masterYearly : Event :=
  { id := EventId.base 1, title := "Annual", description := none
    startDate := iMar4, endDate := none, isRecurring := true
    recurringPattern := some "yearly", recurringWeeks := some RWeeks.indefinite
    parentEventId := none, originalDate := none }

/-- 2025-03-04T09:00. -/
def iMar4next : Instant := ⟨2025, 3, 4, 32400000⟩

/-- Claim C5: the memory backend's range query includes a generated recurring
occurrence whose start equals the window end: its filter is inclusive at
both bounds, so the upper bound is not strictly exclusive. -/
theorem C5_counterexample :
    ((memGetEventsByDateRange ⟨[masterYearly], [], 2⟩ iMar4 iMar4next).any
      (fun e => e.id == EventId.recurIdx (EventId.base 1) 1 &&
        e.startDate == iMar4next)) = true ∧
    decide (iMar4next.lt iMar4next) = false := by decide

/-- Claim C5 (amended): on the database backend every generated recurring
occurrence returned by the range query satisfies `S ≤ startDate < E`
(strictly exclusive upper bound); on the memory backend the range query's
filter is inclusive at both ends, so its results satisfy only
`S ≤ startDate ≤ E`. -/
theorem C5_window_bounds :
    (∀ (s : Store) (S E : Instant), S.Valid → E.Valid →
      (∀ ev ∈ s.events, ev.startDate.Valid) →
      (∀ ev ∈ s.events, ∃ n, ev.id = EventId.base n) →
      ∀ e ∈ supaGetEventsByDateRange s S E, ∀ p k, e.id = EventId.recurDay p k →
        S.le e.startDate ∧ e.startDate.lt E) ∧
    (∀ (s : Store) (S E : Instant), ∀ e ∈ memGetEventsByDateRange s S E,
      S.le e.startDate ∧ e.startDate.le E) := by
  constructor
  · intro s S E hS hE hW hIds e he p k hid
    unfold supaGetEventsByDateRange supaExpand at he
    simp only [Option.getD_some] at he
    rw [mem_sortByStart, List.mem_append] at he
    rcases he with he | he
    · rw [List.mem_flatMap] at he
      obtain ⟨ev, hev, hmem⟩ := he
      have hev' : ev ∈ s.events := (List.mem_filter.1 (mem_sortByStart.1 hev)).1
      by_cases hrec : ev.isRecurring = true
      · rw [if_pos hrec] at hmem
        exact supaGenerate_bounds (hW ev hev') hS e hmem
      · rw [if_neg hrec] at hmem
        obtain ⟨n, hn⟩ := hIds ev hev'
        rcases List.mem_singleton.1 hmem with rfl
        rw [hn] at hid
        cases hid
    · have hin : e ∈ s.events := (List.mem_filter.1 he).1
      obtain ⟨n, hn⟩ := hIds e hin
      rw [hn] at hid
      cases hid
  · intro s S E e he
    unfold memGetEventsByDateRange at he
    rw [mem_sortByStart, List.mem_flatMap] at he
    obtain ⟨ev, _, hmem⟩ := he
    rw [List.mem_append] at hmem
    rcases hmem with hmem | hmem
    · split at hmem
      · rcases List.mem_singleton.1 hmem with rfl
        assumption
      · cases hmem
    · split at hmem
      · exact of_decide_eq_true (List.mem_filter.1 hmem).2
      · cases hmem

/-- Claim C5 witness: on a concrete store the generated occurrence of the weekly
master lies in `[S, E)` on the database backend, and the memory backend's
results lie in the inclusive window. -/
theorem C5_window_bounds_witness :
    (iMar1.le (supaInstance masterWeek1 iMar4).startDate ∧
      (supaInstance masterWeek1 iMar4).startDate.lt iMar22) ∧
    (iMar4.le masterYearly.startDate ∧ masterYearly.startDate.le iMar4next) :=
  ⟨C5_window_bounds.1 storeWeek1 iMar1 iMar22 (by decide) (by decide)
      (by decide) (fun ev hev => ⟨1, by
        rcases List.mem_singleton.1 hev with rfl
        rfl⟩)
      (supaInstance masterWeek1 iMar4) (by decide)
      (EventId.base 1) (dayKey iMar4) rfl,
   C5_window_bounds.2 ⟨[masterYearly], [], 2⟩ iMar4 iMar4next masterYearly (by decide)⟩

/-- Unfolding equation of the enhanced memory generator. -/
theorem memGenerate_def (base : Event) (wS wE : Instant) (dels mods : List DayKey) :
    memGenerate base wS wE dels mods =
      memGenLoop (base.recurringPattern.getD "") base (memSeriesEnd base wE)
        dels mods 500 (imax base.startDate wS) := rfl

/-- 2024-03-01T09:00. -/
def iMar1t : Instant := ⟨2024, 3, 1, 32400000⟩

/-- A `deleted` exception for the 2024-03-01 calendar day (midnight). -/
def excMar1 : Exc := ⟨EventId.base 1, ⟨2024, 3, 1, 0⟩, ExcType.deleted, none⟩

/-- Claim C10: with a deleted exception covering the window-start day, the first
emitted occurrence of an early-starting master is one step after the window
start, not at the window start instant. -/
theorem C10_counterexample :
    (supaGenerate masterBeforeWindow iMar1t iMar22 [excMar1]).head?.map
      (fun e => e.startDate) = some ⟨2024, 3, 8, 32400000⟩ ∧
    ((⟨2024, 3, 8, 32400000⟩ : Instant) == iMar1t) = false := by decide

/-- Claim C10 (amended): for a master starting strictly before the window start,
both generators anchor the cursor at the window start
(`cursor = max(startDate, windowStart) = windowStart`); every emitted
occurrence starts at some stepper iterate of the window start and carries the
instance id derived from that instant (day-keyed on the database backend,
instant-keyed on the memory backend); and when the window-start day is not
excepted and lies before the series end, the first emitted occurrence starts
exactly at the window start instant. -/
theorem C10_window_anchored :
    ∀ (base : Event) (wS wE : Instant) (excs : List Exc),
      base.startDate.lt wS →
      (imax base.startDate wS = wS) ∧
      (∀ e ∈ supaGenerate base wS wE excs,
        ∃ k, e.startDate = (supaStep (base.recurringPattern.getD ""))^[k] wS ∧
          e.id = EventId.recurDay base.id (dayKey e.startDate) ∧
          e.parentEventId = some base.id) ∧
      (∀ e ∈ memGenerate base wS wE (delKeys excs) (modKeys excs),
        ∃ k, e.startDate = (memStep (base.recurringPattern.getD ""))^[k] wS ∧
          e.id = EventId.recurMs base.id e.startDate ∧
          e.parentEventId = some base.id) ∧
      (dayKey wS ∉ delKeys excs → dayKey wS ∉ modKeys excs →
        wS.lt (supaSeriesEnd base wE) →
        ∃ rest, supaGenerate base wS wE excs = supaInstance base wS :: rest) ∧
      (dayKey wS ∉ delKeys excs → dayKey wS ∉ modKeys excs →
        wS.lt (memSeriesEnd base wE) →
        ∃ rest, memGenerate base wS wE (delKeys excs) (modKeys excs) =
          memInstance base wS :: rest) := by
  intro base wS wE excs hlt
  have himax := imax_eq_right hlt
  refine ⟨himax, ?_, ?_, ?_, ?_⟩
  · intro e he
    rw [supaGenerate_def, himax] at he
    exact supaGenLoop_iterates _ base _ _ _ _ wS e he
  · intro e he
    rw [memGenerate_def, himax] at he
    exact memGenLoop_iterates _ base _ _ _ 500 wS e he
  · intro hdel hmod hguard
    rw [supaGenerate_def, himax]
    exact supaGenLoop_head _ base _ _ _ _ wS (by unfold fuelFor; omega) hguard hdel hmod
  · intro hdel hmod hguard
    rw [memGenerate_def, himax]
    exact memGenLoop_head _ base _ _ _ 500 wS (by omega) hguard hdel hmod

/-- Claim C10 witness: with no exception, the early-starting weekly master's first
emitted occurrence is exactly the window-start instant on both backends. -/
theorem C10_window_anchored_witness :
    imax masterBeforeWindow.startDate iMar1t = iMar1t ∧
    (∃ rest, supaGenerate masterBeforeWindow iMar1t iMar22 [] =
      supaInstance masterBeforeWindow iMar1t :: rest) ∧
    (∃ rest, memGenerate masterBeforeWindow iMar1t iMar22 (delKeys []) (modKeys []) =
      memInstance masterBeforeWindow iMar1t :: rest) :=
  ⟨(C10_window_anchored masterBeforeWindow iMar1t iMar22 [] (by decide)).1,
   (C10_window_anchored masterBeforeWindow iMar1t iMar22 [] (by decide)).2.2.2.1
     (by decide) (by decide) (by decide),
   (C10_window_anchored masterBeforeWindow iMar1t iMar22 [] (by decide)).2.2.2.2
     (by decide) (by decide) (by decide)⟩
